import Mathlib

set_option maxHeartbeats 1000000

/-! Shallow embedding of the deep-sdf data-creation and latent-synthesis
pipeline (files src/deep_sdf/src/data_creator.py and
src/deep_sdf/src/synthesize.py).  Latent codes are modelled as lists of
rationals (torch tensors of floats in the source); meshes are lists of
3-vectors of rational coordinates.  Randomness (python random module,
numpy generators, trimesh surface sampling) is modelled by passing the
realized draws as explicit oracle arguments. -/

/-- A 3d vector of rational coordinates (a mesh vertex / a sampled point). -/
structure Vec3 where
  x : ℚ
  y : ℚ
  z : ℚ
  deriving DecidableEq, Inhabited

/-- Componentwise subtraction of 3-vectors (numpy broadcasting of a - b). -/
def vsub3 (a b : Vec3) : Vec3 := ⟨a.x - b.x, a.y - b.y, a.z - b.z⟩

/-- Componentwise addition of 3-vectors. -/
def vadd3 (a b : Vec3) : Vec3 := ⟨a.x + b.x, a.y + b.y, a.z + b.z⟩

/-- Scaling a 3-vector by a scalar (numpy vertices * c). -/
def vsmul3 (c : ℚ) (v : Vec3) : Vec3 := ⟨v.x * c, v.y * c, v.z * c⟩

/-- Componentwise product of 3-vectors. -/
def vmul3 (a b : Vec3) : Vec3 := ⟨a.x * b.x, a.y * b.y, a.z * b.z⟩

/-- Scaling a latent code by a scalar: torch tensor * scalar. -/
def vsmul (c : ℚ) (v : List ℚ) : List ℚ := v.map (fun a => a * c)

/-- Elementwise sum of two latent codes: torch tensor + tensor
(same shape in every use in the source). -/
def vadd (a b : List ℚ) : List ℚ := List.zipWith (· + ·) a b

/-- Elementwise difference of two latent codes. -/
def vsub (a b : List ℚ) : List ℚ := List.zipWith (· - ·) a b

/-- The synthesis_type string literal for seeded records. -/
def tInitial : String := "initial"

/-- The synthesis_type string literal for interpolation records. -/
def tInterpolation : String := "interpolation"

/-- The synthesis_type string literal for arithmetic records. -/
def tArithmetic : String := "arithmetic"

/-- The loop body of SynthesizerHelper.interpolate: python
`for fi, f in enumerate(factors)` starting at counter `fi`, updating
`interpolated = interpolated * (1 - f) + latent_codes[fi + 1] * f`. -/
def interpolateLoop (latent_codes : List (List ℚ)) : ℕ → List ℚ → List ℚ → List ℚ
  | _, interpolated, [] => interpolated
  | fi, interpolated, f :: fs =>
      interpolateLoop latent_codes (fi + 1)
        (vadd (vsmul (1 - f) interpolated) (vsmul f (latent_codes.getD (fi + 1) [])))
        fs

/-- SynthesizerHelper.interpolate (synthesize.py lines 21-41).  The python
assert `len(latent_codes) - 1 == len(factors)` is carried as a hypothesis
of the theorems below; under it every index access is in range. -/
def interpolate (latent_codes : List (List ℚ)) (factors : List ℚ) : List ℚ :=
  if latent_codes.length = 1 then latent_codes.headD []
  else interpolateLoop latent_codes 0 (latent_codes.headD []) factors

/-- Modelled from the spec's words (for the refinement part of claim C2):
left-fold — result := codes[0]; for each factor paired with the next code:
result := result * (1 - factor) + code * factor. -/
def interpolateSpecFold (codes : List (List ℚ)) (factors : List ℚ) : List ℚ :=
  (factors.zip codes.tail).foldl
    (fun r p => vadd (vsmul (1 - p.1) r) (vsmul p.1 p.2)) (codes.headD [])

theorem vsmul_one (v : List ℚ) : vsmul 1 v = v := by
  simp [vsmul]

theorem vadd_vsmul_zero_right (a b : List ℚ) (h : b.length = a.length) :
    vadd a (vsmul 0 b) = a := by
  induction a generalizing b with
  | nil => simp [vadd]
  | cons a0 as ih =>
      cases b with
      | nil => simp at h
      | cons b0 bs =>
          simp only [vadd, vsmul, List.map_cons, List.zipWith_cons_cons, mul_zero, add_zero]
          have := ih bs (by simpa using h)
          simpa [vadd, vsmul] using this

theorem vadd_vsmul_zero_left (a b : List ℚ) (h : b.length = a.length) :
    vadd (vsmul 0 a) b = b := by
  induction a generalizing b with
  | nil => cases b with
      | nil => simp [vadd]
      | cons b0 bs => simp at h
  | cons a0 as ih =>
      cases b with
      | nil => simp at h
      | cons b0 bs =>
          simp only [vadd, vsmul, List.map_cons, List.zipWith_cons_cons, mul_zero, zero_add]
          have := ih bs (by simpa using h)
          simpa [vadd, vsmul] using this

theorem getD_succ_tail (codes : List (List ℚ)) (fi : ℕ) :
    codes.getD (fi + 1) [] = codes.tail.getD fi [] := by
  cases codes with
  | nil => simp
  | cons c cs => rfl

theorem interpolateLoop_eq_zip_foldl (latent_codes : List (List ℚ)) (fs : List ℚ)
    (fi : ℕ) (acc : List ℚ) (h : fi + fs.length ≤ latent_codes.tail.length) :
    interpolateLoop latent_codes fi acc fs =
      (fs.zip (latent_codes.tail.drop fi)).foldl
        (fun r p => vadd (vsmul (1 - p.1) r) (vsmul p.1 p.2)) acc := by
  induction fs generalizing fi acc with
  | nil => simp [interpolateLoop]
  | cons f fs ih =>
      have hfi : fi < latent_codes.tail.length := by
        simp only [List.length_cons] at h; omega
      have hdrop : latent_codes.tail.drop fi =
          latent_codes.tail[fi] :: latent_codes.tail.drop (fi + 1) :=
        List.drop_eq_getElem_cons hfi
      have hgetD : latent_codes.getD (fi + 1) [] = latent_codes.tail[fi] := by
        rw [getD_succ_tail]; exact List.getD_eq_getElem _ _ hfi
      rw [interpolateLoop, ih (fi + 1) _ (by simp only [List.length_cons] at h; omega),
        hdrop, List.zip_cons_cons, List.foldl_cons, hgetD]

/-- Claim C2: interpolation identities — interpolate([a], []) returns a
unchanged; interpolate([a,b],[0]) returns a; interpolate([a,b],[1]) returns b
(for codes of equal dimension, as torch elementwise addition requires); and in
general, for k+1 codes and k factors (the python assert), the result is the
left fold result := codes[0]; for each factor f with next code c:
result := result * (1 - f) + c * f. -/
theorem C2_interpolate_identities :
    (∀ a : List ℚ, interpolate [a] [] = a) ∧
    (∀ a b : List ℚ, b.length = a.length → interpolate [a, b] [0] = a) ∧
    (∀ a b : List ℚ, b.length = a.length → interpolate [a, b] [1] = b) ∧
    (∀ codes factors, codes.length = factors.length + 1 →
      interpolate codes factors = interpolateSpecFold codes factors) := by
  refine ⟨?_, ?_, ?_, ?_⟩
  · intro a; simp [interpolate]
  · intro a b h
    have : interpolate [a, b] [0] = vadd (vsmul (1 - 0) a) (vsmul 0 b) := by
      simp [interpolate, interpolateLoop, List.getD]
    rw [this]
    simpa [vsmul_one] using vadd_vsmul_zero_right a b h
  · intro a b h
    have : interpolate [a, b] [1] = vadd (vsmul (1 - 1) a) (vsmul 1 b) := by
      simp [interpolate, interpolateLoop, List.getD]
    rw [this]
    rw [show (1 : ℚ) - 1 = 0 by norm_num, vsmul_one]
    exact vadd_vsmul_zero_left a b h
  · intro codes factors h
    rcases factors with _ | ⟨f, fs⟩
    · rcases codes with _ | ⟨c, cs⟩
      · simp at h
      · rcases cs with _ | ⟨c2, cs2⟩
        · simp [interpolate, interpolateSpecFold]
        · simp at h
    · have hlen : codes.length = fs.length + 2 := by
        simp only [List.length_cons] at h; omega
      have hne : codes.length ≠ 1 := by omega
      have htl : codes.tail.length = fs.length + 1 := by
        simp [List.length_tail, hlen]
      rw [interpolate, if_neg hne,
        interpolateLoop_eq_zip_foldl codes (f :: fs) 0 _
          (by simp only [List.length_cons, htl]; omega)]
      simp [interpolateSpecFold]

/-- Concrete check of C2 at explicit latent codes, discharging the
dimension and length hypotheses. -/
theorem C2_interpolate_identities_witness :
    interpolate [[(1 : ℚ), 2]] [] = [(1 : ℚ), 2] ∧
    interpolate [[(1 : ℚ), 2], [3, 4]] [0] = [(1 : ℚ), 2] ∧
    interpolate [[(1 : ℚ), 2], [3, 4]] [1] = [(3 : ℚ), 4] ∧
    interpolate [[(1 : ℚ), 2], [3, 4]] [1/2] =
      interpolateSpecFold [[(1 : ℚ), 2], [3, 4]] [1/2] :=
  ⟨C2_interpolate_identities.1 [(1 : ℚ), 2],
   C2_interpolate_identities.2.1 [(1 : ℚ), 2] [3, 4] rfl,
   C2_interpolate_identities.2.2.1 [(1 : ℚ), 2] [3, 4] rfl,
   C2_interpolate_identities.2.2.2 [[(1 : ℚ), 2], [3, 4]] [1/2] rfl⟩


/-- One entry of the synthesis ledger (synthesize.py lines 219-229 and
275-280): name of the exported artifact, position index, synthesis type,
and the latent code.  In the seeded records the python code stores the
integer i in the name field; we store its decimal rendering (the name of
an initial record is never parsed or compared against a file name). -/
structure SynthRecord where
  name : String
  index : ℕ
  synthesis_type : String
  latent_code : List ℚ
  deriving DecidableEq, Inhabited

/-- The seeded ledger (synthesize.py lines 219-229): one initial record per
pretrained latent code, index = enumeration order. -/
def seedLedger (latent_codes : List (List ℚ)) : List SynthRecord :=
  latent_codes.enum.map
    (fun p => { name := toString p.1, index := p.1,
                synthesis_type := tInitial, latent_code := p.2 })

/-- State carried across iterations of infinite_synthesis: the in-memory
ledger, the persisted ledger file content (none while the npz file has not
been written), the set of exported mesh file names in save_dir, and how
many times synthesizer.synthesize (hence the decoder) was invoked. -/
structure LoopState where
  ledger : List SynthRecord
  ledgerFile : Option (List SynthRecord)
  meshFiles : List String
  decoderCalls : ℕ
  deriving DecidableEq, Inhabited

/-- The outcome of the random draws of one loop iteration: the derived
candidate file name, the synthesis type chosen by the coin flip, the
synthesized latent code, and whether extract_mesh produced a surface
(mesh is not None). -/
structure IterInput where
  name : String
  synthType : String
  code : List ℚ
  meshResult : Bool
  deriving DecidableEq, Inhabited

/-- One iteration of the while loop of infinite_synthesis (synthesize.py
lines 236-287): if the derived save name already exists the iteration is
skipped (continue); otherwise synthesize is invoked (exporting the mesh
only when extraction succeeded), a record with index = current ledger
length is appended, and the full ledger is rewritten to disk. -/
def loopIter (s : LoopState) (inp : IterInput) : LoopState :=
  if inp.name ∈ s.meshFiles then s
  else
    let files := if inp.meshResult then s.meshFiles ++ [inp.name] else s.meshFiles
    let r : SynthRecord :=
      { name := inp.name, index := s.ledger.length,
        synthesis_type := inp.synthType, latent_code := inp.code }
    { ledger := s.ledger ++ [r], ledgerFile := some (s.ledger ++ [r]),
      meshFiles := files, decoderCalls := s.decoderCalls + 1 }

/-- Running the loop over a sequence of iteration draws. -/
def runLoop (s : LoopState) (inputs : List IterInput) : LoopState :=
  inputs.foldl loopIter s

/-- The number of non-skipped (successful) iterations in a run. -/
def countFresh : LoopState → List IterInput → ℕ
  | _, [] => 0
  | s, inp :: rest =>
      (if inp.name ∈ s.meshFiles then 0 else 1) + countFresh (loopIter s inp) rest

/-- The ledger invariant: the record at position k carries index k. -/
def ledgerIndexed (l : List SynthRecord) : Prop :=
  ∀ k (h : k < l.length), (l.get ⟨k, h⟩).index = k

/-- The initial state of infinite_synthesis when no ledger file exists yet:
seeded ledger, no persisted file, whatever mesh files are in save_dir. -/
def initLoopState (latent_codes : List (List ℚ)) (files0 : List String) : LoopState :=
  { ledger := seedLedger latent_codes, ledgerFile := none,
    meshFiles := files0, decoderCalls := 0 }

theorem seedLedger_length (cs : List (List ℚ)) : (seedLedger cs).length = cs.length := by
  simp [seedLedger]

theorem seedLedger_indexed (cs : List (List ℚ)) : ledgerIndexed (seedLedger cs) := by
  intro k h
  simp only [seedLedger, List.get_eq_getElem, List.getElem_map]
  have hk : k < cs.enum.length := by simpa [seedLedger] using h
  have := List.getElem_enum cs k (by simpa using hk)
  simp [this]

theorem ledgerIndexed_append (l : List SynthRecord) (r : SynthRecord)
    (hl : ledgerIndexed l) (hr : r.index = l.length) : ledgerIndexed (l ++ [r]) := by
  intro k h
  rcases Nat.lt_or_ge k l.length with hk | hk
  · have hg : (l ++ [r]).get ⟨k, h⟩ = l.get ⟨k, hk⟩ := by
      simp only [List.get_eq_getElem]
      exact List.getElem_append_left hk
    rw [hg]; exact hl k hk
  · have hlt : k < l.length + 1 := by simpa using h
    have hk2 : k = l.length := by omega
    subst hk2
    have hg : (l ++ [r]).get ⟨l.length, h⟩ = r := by
      simp only [List.get_eq_getElem]
      exact List.getElem_concat_length _ _ _ rfl _
    rw [hg, hr]

theorem runLoop_indexed_aux (inputs : List IterInput) (s : LoopState)
    (hs : ledgerIndexed s.ledger) :
    (runLoop s inputs).ledger.length = s.ledger.length + countFresh s inputs ∧
      ledgerIndexed (runLoop s inputs).ledger := by
  induction inputs generalizing s with
  | nil => simpa [runLoop, countFresh] using hs
  | cons inp rest ih =>
      by_cases hc : inp.name ∈ s.meshFiles
      · have hstep : loopIter s inp = s := by simp [loopIter, if_pos hc]
        have := ih s hs
        simpa [runLoop, countFresh, hc, hstep, List.foldl_cons] using this
      · have hstep : (loopIter s inp).ledger =
            s.ledger ++ [{ name := inp.name, index := s.ledger.length,
                           synthesis_type := inp.synthType, latent_code := inp.code }] := by
          simp [loopIter, if_neg hc]
        have hidx : ledgerIndexed (loopIter s inp).ledger := by
          rw [hstep]; exact ledgerIndexed_append _ _ hs rfl
        have := ih (loopIter s inp) hidx
        refine ⟨?_, by simpa [runLoop, List.foldl_cons] using this.2⟩
        have hlen : (loopIter s inp).ledger.length = s.ledger.length + 1 := by
          rw [hstep]; simp
        calc (runLoop s (inp :: rest)).ledger.length
            = (runLoop (loopIter s inp) rest).ledger.length := by
              simp [runLoop, List.foldl_cons]
          _ = (loopIter s inp).ledger.length + countFresh (loopIter s inp) rest := this.1
          _ = s.ledger.length + countFresh s (inp :: rest) := by
              rw [hlen]; simp [countFresh, if_neg hc]; omega

/-- Claim C1: ledger append invariant — starting from the seeded ledger
(one initial record per pretrained latent code, index = enumeration order),
after a run of the infinite synthesis loop the ledger length equals the
initial length plus the number of successful non-skipped iterations, and
the record at every position k carries index k. -/
theorem C1_ledger_append_invariant (latent_codes : List (List ℚ))
    (files0 : List String) (inputs : List IterInput) :
    (runLoop (initLoopState latent_codes files0) inputs).ledger.length =
        latent_codes.length + countFresh (initLoopState latent_codes files0) inputs ∧
      ledgerIndexed (runLoop (initLoopState latent_codes files0) inputs).ledger := by
  have h := runLoop_indexed_aux inputs (initLoopState latent_codes files0)
    (by simpa [initLoopState] using seedLedger_indexed latent_codes)
  simpa [initLoopState, seedLedger_length] using h

/-- Claim C7: idempotent skip — when the derived target file name already
exists on disk, the iteration changes nothing (no record appended, ledger
file untouched, decoder not invoked) and the loop continues with the
remaining iterations. -/
theorem C7_skip_existing_name (s : LoopState) (inp : IterInput)
    (rest : List IterInput) (h : inp.name ∈ s.meshFiles) :
    loopIter s inp = s ∧
      (loopIter s inp).ledger = s.ledger ∧
      (loopIter s inp).ledgerFile = s.ledgerFile ∧
      (loopIter s inp).decoderCalls = s.decoderCalls ∧
      runLoop s (inp :: rest) = runLoop s rest := by
  have hstep : loopIter s inp = s := by simp [loopIter, if_pos h]
  exact ⟨hstep, by rw [hstep], by rw [hstep], by rw [hstep],
    by simp [runLoop, List.foldl_cons, hstep]⟩

/-- Concrete check of C7: an iteration whose derived name is already on
disk leaves the state untouched. -/
theorem C7_skip_existing_name_witness :
    loopIter { ledger := [], ledgerFile := none,
               meshFiles := [r"0__1__0-5.obj"], decoderCalls := 0 }
        { name := "0__1__0-5.obj", synthType := tInterpolation,
          code := [0], meshResult := true } =
      { ledger := [], ledgerFile := none,
        meshFiles := [r"0__1__0-5.obj"], decoderCalls := 0 } :=
  (C7_skip_existing_name _ _ [] (by decide)).1

/-- Claim C9 (implicit): in a non-skipped iteration where mesh extraction
yields no surface, a record (with the derived name and index = current
ledger length) is still appended and the ledger file rewritten, while no
mesh file is exported, so the record's name refers to a file that does not
exist on disk. -/
theorem C9_null_mesh_still_appends (s : LoopState) (inp : IterInput)
    (hfresh : inp.name ∉ s.meshFiles)
    (hnull : inp.meshResult = false) :
    (loopIter s inp).ledger =
        s.ledger ++ [{ name := inp.name, index := s.ledger.length,
                       synthesis_type := inp.synthType, latent_code := inp.code }] ∧
      (loopIter s inp).ledgerFile = some ((loopIter s inp).ledger) ∧
      (loopIter s inp).meshFiles = s.meshFiles ∧
      inp.name ∉ (loopIter s inp).meshFiles := by
  refine ⟨by simp [loopIter, if_neg hfresh, hnull], ?_, ?_, ?_⟩
  · simp [loopIter, if_neg hfresh, hnull]
  · simp [loopIter, if_neg hfresh, hnull]
  · simp [loopIter, if_neg hfresh, hnull]; exact hfresh

/-- Concrete check of C9 at an explicit state: the record lands in the
ledger and the ledger file while the disk still lacks the mesh file. -/
theorem C9_null_mesh_still_appends_witness :
    (loopIter { ledger := [], ledgerFile := none, meshFiles := [], decoderCalls := 0 }
        { name := "0__1__0-5.obj", synthType := tInterpolation,
          code := [0], meshResult := false }).ledger =
        [{ name := "0__1__0-5.obj", index := 0,
           synthesis_type := tInterpolation, latent_code := [0] }] ∧
      "0__1__0-5.obj" ∉
        (loopIter { ledger := [], ledgerFile := none, meshFiles := [], decoderCalls := 0 }
          { name := "0__1__0-5.obj", synthType := tInterpolation,
            code := [0], meshResult := false }).meshFiles := by
  have h := C9_null_mesh_still_appends
    { ledger := [], ledgerFile := none, meshFiles := [], decoderCalls := 0 }
    { name := "0__1__0-5.obj", synthType := tInterpolation,
      code := [0], meshResult := false } (by decide) rfl
  exact ⟨by simpa using h.1, h.2.2.2⟩

/-- Componentwise list minimum (numpy min over axis 0); 0 for the empty
list, which never arises for a loaded mesh. -/
def minQ : List ℚ → ℚ
  | [] => 0
  | a :: r => r.foldl min a

/-- Componentwise list maximum (numpy max over axis 0). -/
def maxQ : List ℚ → ℚ
  | [] => 0
  | a :: r => r.foldl max a

/-- mesh.bounds[0]: the axis-aligned bounding-box minimum corner. -/
def bounds0 (vs : List Vec3) : Vec3 :=
  ⟨minQ (vs.map Vec3.x), minQ (vs.map Vec3.y), minQ (vs.map Vec3.z)⟩

/-- mesh.bounds[1]: the axis-aligned bounding-box maximum corner. -/
def bounds1 (vs : List Vec3) : Vec3 :=
  ⟨maxQ (vs.map Vec3.x), maxQ (vs.map Vec3.y), maxQ (vs.map Vec3.z)⟩

/-- Arithmetic mean of a list of rationals (numpy mean; 0 on []). -/
def meanQ (l : List ℚ) : ℚ := l.sum / (l.length : ℚ)

/-- np.mean(mesh.vertices, axis=0): the vertex centroid. -/
def centroid (vs : List Vec3) : Vec3 :=
  ⟨meanQ (vs.map Vec3.x), meanQ (vs.map Vec3.y), meanQ (vs.map Vec3.z)⟩

/-- The three translate modes of DataCreatorHelper (strings MIN_BOUND,
CENTER, CENTER_WITHOUT_Z in the source; the invalid-string error path of
load_mesh is outside the claims). -/
inductive TranslateMode where
  | min_bound
  | center
  | center_without_z
  deriving DecidableEq

/-- The offset computed by load_mesh (data_creator.py lines 183-191):
bounds[0] for MIN_BOUND; np.mean(vertices, axis=0) for CENTER; for
CENTER_WITHOUT_Z the code takes mesh.bounds.sum(axis=0) * 0.5 — the
bounding-box midpoint — and then overwrites its z entry with bounds[0][2]. -/
def translateVector (mode : TranslateMode) (vs : List Vec3) : Vec3 :=
  match mode with
  | .min_bound => bounds0 vs
  | .center => centroid vs
  | .center_without_z =>
      ⟨((bounds0 vs).x + (bounds1 vs).x) * (1/2),
       ((bounds0 vs).y + (bounds1 vs).y) * (1/2),
       (bounds0 vs).z⟩

/-- The translation step of load_mesh: mesh.vertices -= vector. -/
def translateMesh (mode : TranslateMode) (vs : List Vec3) : List Vec3 :=
  vs.map (fun v => vsub3 v (translateVector mode vs))

/-- DataCreatorHelper.get_normalized_mesh (data_creator.py lines 73-92)
in the branch where max_length is supplied: length := max_length and
vertices := vertices * (1.0 / length).  (When max_length is None the code
instead derives length as the max vertex norm; claim C4 quantifies over a
supplied max_length.) -/
def get_normalized_mesh (vs : List Vec3) (max_length : ℚ) : List Vec3 :=
  vs.map (fun v => vsmul3 (1 / max_length) v)

theorem foldl_min_map_sub (l : List ℚ) (a c : ℚ) :
    (l.map (fun v => v - c)).foldl min (a - c) = l.foldl min a - c := by
  induction l generalizing a with
  | nil => rfl
  | cons b r ih =>
      simp only [List.map_cons, List.foldl_cons]
      rw [min_sub_sub_right, ih]

theorem foldl_max_map_sub (l : List ℚ) (a c : ℚ) :
    (l.map (fun v => v - c)).foldl max (a - c) = l.foldl max a - c := by
  induction l generalizing a with
  | nil => rfl
  | cons b r ih =>
      simp only [List.map_cons, List.foldl_cons]
      rw [max_sub_sub_right, ih]

theorem minQ_map_sub (l : List ℚ) (c : ℚ) (h : l ≠ []) :
    minQ (l.map (fun v => v - c)) = minQ l - c := by
  cases l with
  | nil => exact absurd rfl h
  | cons a r => simp only [minQ, List.map_cons]; exact foldl_min_map_sub r a c

theorem maxQ_map_sub (l : List ℚ) (c : ℚ) (h : l ≠ []) :
    maxQ (l.map (fun v => v - c)) = maxQ l - c := by
  cases l with
  | nil => exact absurd rfl h
  | cons a r => simp only [maxQ, List.map_cons]; exact foldl_max_map_sub r a c

theorem sum_map_sub (l : List ℚ) (c : ℚ) :
    (l.map (fun v => v - c)).sum = l.sum - (l.length : ℚ) * c := by
  induction l with
  | nil => simp
  | cons a r ih =>
      simp only [List.map_cons, List.sum_cons, List.length_cons, ih]
      push_cast
      ring

theorem meanQ_map_sub (l : List ℚ) (c : ℚ) (h : l ≠ []) :
    meanQ (l.map (fun v => v - c)) = meanQ l - c := by
  have hn : (l.length : ℚ) ≠ 0 := by
    have : l.length ≠ 0 := by simpa [List.length_eq_zero] using h
    exact_mod_cast this
  simp only [meanQ, List.length_map, sum_map_sub]
  field_simp

theorem translateMesh_comp_x (mode : TranslateMode) (vs : List Vec3) :
    (translateMesh mode vs).map Vec3.x =
      (vs.map Vec3.x).map (fun a => a - (translateVector mode vs).x) := by
  simp [translateMesh, vsub3, List.map_map, Function.comp_def]

theorem translateMesh_comp_y (mode : TranslateMode) (vs : List Vec3) :
    (translateMesh mode vs).map Vec3.y =
      (vs.map Vec3.y).map (fun a => a - (translateVector mode vs).y) := by
  simp [translateMesh, vsub3, List.map_map, Function.comp_def]

theorem translateMesh_comp_z (mode : TranslateMode) (vs : List Vec3) :
    (translateMesh mode vs).map Vec3.z =
      (vs.map Vec3.z).map (fun a => a - (translateVector mode vs).z) := by
  simp [translateMesh, vsub3, List.map_map, Function.comp_def]

/-- Claim C3 as stated is false: with translate mode CenterWithoutZ the
code subtracts the bounding-box horizontal midpoint, not the mean of the
vertex x and y coordinates.  On the mesh with vertices (0,0,0), (0,0,0),
(3,0,0) the translated vertex centroid has x = -1/2, not 0. -/
theorem C3_centroid_counterexample :
    ¬ ((centroid (translateMesh TranslateMode.center_without_z
          [⟨0,0,0⟩, ⟨0,0,0⟩, ⟨3,0,0⟩])).x = 0 ∧
       (centroid (translateMesh TranslateMode.center_without_z
          [⟨0,0,0⟩, ⟨0,0,0⟩, ⟨3,0,0⟩])).y = 0) := by
  intro h
  have hx := h.1
  norm_num [centroid, translateMesh, translateVector, bounds0, bounds1,
    vsub3, minQ, maxQ, meanQ, List.map_cons, List.foldl] at hx

/-- Claim C3 (amended): after the translation step of load_mesh, MinBound
puts the bounding-box minimum corner at the origin; Center puts the vertex
centroid at the origin; CenterWithoutZ puts the HORIZONTAL BOUNDING-BOX
MIDPOINT (not the vertex centroid, which the claim asserted) at the origin
and the minimum Z coordinate at 0. -/
theorem C3_translate_modes_amended (vs : List Vec3) (h : vs ≠ []) :
    bounds0 (translateMesh TranslateMode.min_bound vs) = ⟨0, 0, 0⟩ ∧
      centroid (translateMesh TranslateMode.center vs) = ⟨0, 0, 0⟩ ∧
      (((bounds0 (translateMesh TranslateMode.center_without_z vs)).x +
          (bounds1 (translateMesh TranslateMode.center_without_z vs)).x) * (1/2) = 0 ∧
       ((bounds0 (translateMesh TranslateMode.center_without_z vs)).y +
          (bounds1 (translateMesh TranslateMode.center_without_z vs)).y) * (1/2) = 0 ∧
       (bounds0 (translateMesh TranslateMode.center_without_z vs)).z = 0) := by
  have hx : vs.map Vec3.x ≠ [] := by simpa using h
  have hy : vs.map Vec3.y ≠ [] := by simpa using h
  have hz : vs.map Vec3.z ≠ [] := by simpa using h
  refine ⟨?_, ?_, ?_, ?_, ?_⟩
  · show bounds0 (translateMesh TranslateMode.min_bound vs) = (⟨0, 0, 0⟩ : Vec3)
    simp only [bounds0, translateMesh_comp_x, translateMesh_comp_y, translateMesh_comp_z,
      minQ_map_sub _ _ hx, minQ_map_sub _ _ hy, minQ_map_sub _ _ hz]
    simp [translateVector, bounds0]
  · show centroid (translateMesh TranslateMode.center vs) = (⟨0, 0, 0⟩ : Vec3)
    simp only [centroid, translateMesh_comp_x, translateMesh_comp_y, translateMesh_comp_z,
      meanQ_map_sub _ _ hx, meanQ_map_sub _ _ hy, meanQ_map_sub _ _ hz]
    simp [translateVector, centroid]
  · simp only [bounds0, bounds1, translateMesh_comp_x,
      minQ_map_sub _ _ hx, maxQ_map_sub _ _ hx]
    simp [translateVector, bounds0, bounds1]
    ring
  · simp only [bounds0, bounds1, translateMesh_comp_y,
      minQ_map_sub _ _ hy, maxQ_map_sub _ _ hy]
    simp [translateVector, bounds0, bounds1]
    ring
  · simp only [bounds0, translateMesh_comp_z, minQ_map_sub _ _ hz]
    simp [translateVector, bounds0]

/-- Concrete check of the amended C3 on an explicit nonempty mesh. -/
theorem C3_translate_modes_amended_witness :
    bounds0 (translateMesh TranslateMode.min_bound
      [(⟨0,0,0⟩ : Vec3), ⟨0,0,0⟩, ⟨3,0,0⟩]) = ⟨0, 0, 0⟩ :=
  (C3_translate_modes_amended [⟨0,0,0⟩, ⟨0,0,0⟩, ⟨3,0,0⟩] (by decide)).1

theorem vsmul3_one (v : Vec3) : vsmul3 1 v = v := by
  cases v; simp [vsmul3]

/-- Claim C4 as stated is false: get_normalized_mesh with a supplied
max_length L always multiplies the vertices by 1/L, so applying it to an
already-normalized mesh scales again by 1/L.  With L = 2 and the single
vertex (1,0,0), the first application gives (1/2,0,0) and the second
(1/4,0,0). -/
theorem C4_idempotence_counterexample :
    ¬ (get_normalized_mesh
        (get_normalized_mesh [(⟨1,0,0⟩ : Vec3)] 2) 2 =
       get_normalized_mesh [(⟨1,0,0⟩ : Vec3)] 2) := by
  simp only [get_normalized_mesh, vsmul3, List.map_cons, List.map_nil,
    List.cons.injEq, Vec3.mk.injEq, and_true]
  norm_num

/-- Claim C4 (amended): re-applying get_normalized_mesh with the same
supplied max_length L rescales by 1/L again; it leaves the vertex
positions unchanged exactly when L = 1 or every vertex is the origin
(so idempotence fails for every other mesh and max_length). -/
theorem C4_idempotence_amended (vs : List Vec3) (L : ℚ) (hL : L ≠ 0) :
    get_normalized_mesh (get_normalized_mesh vs L) L = get_normalized_mesh vs L ↔
      L = 1 ∨ ∀ v ∈ vs, v = (⟨0, 0, 0⟩ : Vec3) := by
  by_cases hL1 : L = 1
  · subst hL1
    refine iff_of_true ?_ (Or.inl rfl)
    simp [get_normalized_mesh, vsmul3_one]
  · have hscaleiff : ∀ a : ℚ, a * (1 / L) * (1 / L) = a * (1 / L) ↔ a = 0 := by
      intro a
      constructor
      · intro h
        have hinv : (1 : ℚ) / L ≠ 0 := one_div_ne_zero hL
        have h2 : a * (1 / L) = a := mul_right_cancel₀ hinv h
        by_contra ha
        have h3 : a * (1 / L) = a * 1 := by simpa using h2
        have h4 : (1 : ℚ) / L = 1 := mul_left_cancel₀ ha h3
        exact hL1 ((div_eq_one_iff_eq hL).mp h4).symm
      · intro h; simp [h]
    rw [get_normalized_mesh, get_normalized_mesh, List.map_map,
      List.map_eq_map_iff]
    constructor
    · intro h
      right
      intro v hv
      have hvv := h v hv
      simp only [Function.comp_apply, vsmul3, Vec3.mk.injEq] at hvv
      have hx : v.x = 0 := by
        have := hvv.1
        exact (hscaleiff v.x).mp (by linarith [this])
      have hy : v.y = 0 := by
        have := hvv.2.1
        exact (hscaleiff v.y).mp (by linarith [this])
      have hz : v.z = 0 := by
        have := hvv.2.2
        exact (hscaleiff v.z).mp (by linarith [this])
      cases v
      simp_all
    · intro h v hv
      rcases h with h1 | h0
      · exact absurd h1 hL1
      · rw [h0 v hv]
        simp [vsmul3]

/-- Concrete check of the amended C4: with L = 1 the re-application is a
no-op, and for the zero mesh it is a no-op for any nonzero L. -/
theorem C4_idempotence_amended_witness :
    get_normalized_mesh (get_normalized_mesh [(⟨2,3,4⟩ : Vec3)] 1) 1 =
      get_normalized_mesh [(⟨2,3,4⟩ : Vec3)] 1 ∧
    get_normalized_mesh (get_normalized_mesh [(⟨0,0,0⟩ : Vec3)] 2) 2 =
      get_normalized_mesh [(⟨0,0,0⟩ : Vec3)] 2 :=
  ⟨(C4_idempotence_amended [⟨2,3,4⟩] 1 (by norm_num)).mpr (Or.inl rfl),
   (C4_idempotence_amended [⟨0,0,0⟩] 2 (by norm_num)).mpr
     (Or.inr (by intro v hv; simpa using hv))⟩

/-- The double-underscore separator used in derived names and ids. -/
def tSep : String := "__"

/-- The candidate-pool filter of random_arithmetic_operations_synthesis
(synthesize.py line 106): entries whose synthesis_type is "interpolation"
are excluded.  (The preceding 50% restriction to the first trainedCount
entries only shortens the list and is irrelevant to the claims.) -/
def arithmeticPool (latent_codes_data : List SynthRecord) : List SynthRecord :=
  latent_codes_data.filter (fun rd => rd.synthesis_type != tInterpolation)

/-- The combination loop of random_arithmetic_operations_synthesis
(synthesize.py lines 110-118) applied to the sampled records: start from
record 0's code and id; for each further record, add its code unless it is
the last one, which is subtracted; extend the id with its index after
a double-underscore separator. -/
def random_arithmetic_operations_synthesis (random_data : List SynthRecord) :
    String × List ℚ :=
  let head := random_data.headD default
  let tl := random_data.tail
  tl.enum.foldl
    (fun acc p =>
      (acc.1 ++ tSep ++ toString p.2.index,
       if p.1 ≠ tl.length - 1 then vadd acc.2 p.2.latent_code
       else vsub acc.2 p.2.latent_code))
    (toString head.index, head.latent_code)

theorem vadd_replicate_zero (n : ℕ) :
    vadd (List.replicate n (0 : ℚ)) (List.replicate n 0) = List.replicate n 0 := by
  induction n with
  | zero => rfl
  | succ m ih => simp only [List.replicate_succ, vadd, List.zipWith_cons_cons, add_zero]
                 exact congrArg (List.cons 0) ih

theorem vsub_replicate_zero (n : ℕ) :
    vsub (List.replicate n (0 : ℚ)) (List.replicate n 0) = List.replicate n 0 := by
  induction n with
  | zero => rfl
  | succ m ih => simp only [List.replicate_succ, vsub, List.zipWith_cons_cons, sub_zero]
                 exact congrArg (List.cons 0) ih

/-- Claim C5: arithmetic synthesis — the candidate pool excludes entries of
synthesis_type "interpolation"; on a sample of three entries the resulting
latent code is entry0's code plus entry1's code minus entry2's code and the
id string is the three indices joined by double underscores in sampled
order; on three equal-length zero vectors the result is the zero vector. -/
theorem C5_arithmetic_synthesis :
    (∀ latent_codes_data r, r ∈ arithmeticPool latent_codes_data →
        r.synthesis_type ≠ tInterpolation) ∧
    (∀ d0 d1 d2 : SynthRecord,
        random_arithmetic_operations_synthesis [d0, d1, d2] =
          (toString d0.index ++ tSep ++ toString d1.index ++ tSep ++ toString d2.index,
           vsub (vadd d0.latent_code d1.latent_code) d2.latent_code)) ∧
    (∀ (n : ℕ) (d0 d1 d2 : SynthRecord),
        d0.latent_code = List.replicate n 0 →
        d1.latent_code = List.replicate n 0 →
        d2.latent_code = List.replicate n 0 →
        (random_arithmetic_operations_synthesis [d0, d1, d2]).2 =
          List.replicate n 0) := by
  have hmain : ∀ d0 d1 d2 : SynthRecord,
      random_arithmetic_operations_synthesis [d0, d1, d2] =
        (toString d0.index ++ tSep ++ toString d1.index ++ tSep ++ toString d2.index,
         vsub (vadd d0.latent_code d1.latent_code) d2.latent_code) := by
    intro d0 d1 d2
    simp [random_arithmetic_operations_synthesis, List.enum, List.enumFrom,
      String.append_assoc]
  refine ⟨?_, hmain, ?_⟩
  · intro latent_codes_data r hr
    have h := List.mem_filter.mp hr
    simpa [bne_iff_ne] using h.2
  · intro n d0 d1 d2 h0 h1 h2
    rw [hmain d0 d1 d2]
    simp only [h0, h1, h2, vadd_replicate_zero, vsub_replicate_zero]

/-- Concrete check of C5: three zero records of dimension 2 give the zero
vector and the id string joins the indices in sampled order. -/
theorem C5_arithmetic_synthesis_witness :
    (random_arithmetic_operations_synthesis
        [{ name := "a", index := 0, synthesis_type := tInitial,
           latent_code := List.replicate 2 0 },
         { name := "b", index := 1, synthesis_type := tInitial,
           latent_code := List.replicate 2 0 },
         { name := "c", index := 2, synthesis_type := tInitial,
           latent_code := List.replicate 2 0 }]).2 = List.replicate 2 0 :=
  C5_arithmetic_synthesis.2.2 2 _ _ _ rfl rfl rfl

/-- np.random.uniform(low=mesh.bounds[0], high=mesh.bounds[1]): one draw,
written as low + u * (high - low) with u the underlying unit draw. -/
def bboxUniform (lo hi u : Vec3) : Vec3 := vadd3 lo (vmul3 u (vsub3 hi lo))

/-- Membership in the closed unit cube (np.random.rand draws lie in
[0,1) ⊆ [0,1]^3). -/
def inUnitCube (v : Vec3) : Prop :=
  0 ≤ v.x ∧ v.x ≤ 1 ∧ 0 ≤ v.y ∧ v.y ≤ 1 ∧ 0 ≤ v.z ∧ v.z ≤ 1

/-- DataCreatorHelper.sample_pts (data_creator.py lines 111-144).  The
randomness is passed in as oracle streams: surfaceDraw i is the i-th point
returned by trimesh.sample.sample_surface, noiseDraw i the i-th standard
normal draw (np.random.normal(0, sigma) = sigma * standard draw; sigma is
forced to 0 when with_surface_points_noise is false), bboxDraw i the i-th
unit draw behind np.random.uniform, and volumeDraw i the i-th
np.random.rand point.  Output is the fixed concatenation
[surface][bbox][volume]. -/
def sample_pts (vs : List Vec3)
    (n_surface_sampling n_bbox_sampling n_volume_sampling : ℕ)
    (sigma : ℚ) (with_surface_points_noise : Bool)
    (surfaceDraw noiseDraw bboxDraw volumeDraw : ℕ → Vec3) : List Vec3 :=
  let sig := if with_surface_points_noise then sigma else 0
  let surface := (List.range n_surface_sampling).map
    (fun i => vadd3 (surfaceDraw i) (vsmul3 sig (noiseDraw i)))
  let bbox := (List.range n_bbox_sampling).map
    (fun i => bboxUniform (bounds0 vs) (bounds1 vs) (bboxDraw i))
  let volume := (List.range n_volume_sampling).map volumeDraw
  surface ++ bbox ++ volume

/-- Claim C6: the sampler's output has exactly
n_surface + n_bbox + n_volume points, laid out as the fixed concatenation
[surface block][bbox block][volume block] (including zero-sized blocks),
and the volume block is the raw unit-cube draws — identical for any two
meshes, and inside [0,1]^3 whenever the draws are. -/
theorem C6_sample_pts_layout :
    ∀ (vs vs2 : List Vec3) (nS nB nV : ℕ) (sigma : ℚ) (noiseFlag : Bool)
      (sK nK bK vK : ℕ → Vec3),
    (sample_pts vs nS nB nV sigma noiseFlag sK nK bK vK).length = nS + nB + nV ∧
    (sample_pts vs nS nB nV sigma noiseFlag sK nK bK vK).take nS =
      (List.range nS).map
        (fun i => vadd3 (sK i) (vsmul3 (if noiseFlag then sigma else 0) (nK i))) ∧
    ((sample_pts vs nS nB nV sigma noiseFlag sK nK bK vK).drop nS).take nB =
      (List.range nB).map (fun i => bboxUniform (bounds0 vs) (bounds1 vs) (bK i)) ∧
    (sample_pts vs nS nB nV sigma noiseFlag sK nK bK vK).drop (nS + nB) =
      (sample_pts vs2 nS nB nV sigma noiseFlag sK nK bK vK).drop (nS + nB) ∧
    ((∀ i, inUnitCube (vK i)) →
      ∀ p ∈ (sample_pts vs nS nB nV sigma noiseFlag sK nK bK vK).drop (nS + nB),
        inUnitCube p) := by
  intro vs vs2 nS nB nV sigma noiseFlag sK nK bK vK
  have hdropv : ∀ ws : List Vec3,
      (sample_pts ws nS nB nV sigma noiseFlag sK nK bK vK).drop (nS + nB) =
        (List.range nV).map vK := by
    intro ws
    show ((((List.range nS).map _) ++ ((List.range nB).map _) ++
        ((List.range nV).map vK)).drop (nS + nB)) = (List.range nV).map vK
    rw [List.drop_left']
    simp [List.length_append]
  refine ⟨?_, ?_, ?_, ?_, ?_⟩
  · simp [sample_pts]; omega
  · show ((((List.range nS).map _) ++ _ ++ _).take nS) = _
    rw [List.append_assoc, List.take_left' (by simp)]
  · show (((((List.range nS).map _) ++ _ ++ _).drop nS).take nB) = _
    rw [List.append_assoc, List.drop_left' (by simp), List.take_left' (by simp)]
  · rw [hdropv vs, hdropv vs2]
  · intro hcube p hp
    rw [hdropv vs] at hp
    obtain ⟨i, _, hip⟩ := List.mem_map.mp hp
    rw [← hip]
    exact hcube i

/-- Concrete check of C6: with one point per block the output length is 3
and the volume block is the raw draw, inside the unit cube. -/
theorem C6_sample_pts_layout_witness :
    (sample_pts [(⟨0,0,0⟩ : Vec3)] 1 1 1 0 false
        (fun _ => ⟨0,0,0⟩) (fun _ => ⟨0,0,0⟩) (fun _ => ⟨0,0,0⟩)
        (fun _ => ⟨1/2, 1/2, 1/2⟩)).length = 3 ∧
    (∀ p ∈ (sample_pts [(⟨0,0,0⟩ : Vec3)] 1 1 1 0 false
        (fun _ => ⟨0,0,0⟩) (fun _ => ⟨0,0,0⟩) (fun _ => ⟨0,0,0⟩)
        (fun _ => ⟨1/2, 1/2, 1/2⟩)).drop 2, inUnitCube p) := by
  have h := C6_sample_pts_layout [(⟨0,0,0⟩ : Vec3)] [] 1 1 1 0 false
    (fun _ => ⟨0,0,0⟩) (fun _ => ⟨0,0,0⟩) (fun _ => ⟨0,0,0⟩)
    (fun _ => ⟨1/2, 1/2, 1/2⟩)
  exact ⟨h.1, h.2.2.2.2 (by intro i; exact ⟨by norm_num, by norm_num, by norm_num,
    by norm_num, by norm_num, by norm_num⟩)⟩

/-- Python str.split with the two-character separator of this code base
(a double underscore), on the character list of the name: greedy
left-to-right, non-overlapping, keeping empty groups. -/
def splitUU : List Char → List (List Char)
  | [] => [[]]
  | '_' :: '_' :: rest => [] :: splitUU rest
  | c :: rest =>
      match splitUU rest with
      | [] => [[c]]
      | g :: gs => (c :: g) :: gs

/-- Python int(s) on the digit strings produced by the name scheme (the
source never feeds a non-digit index to int). -/
def natOfDigits (cs : List Char) : ℕ :=
  cs.foldl (fun acc c => acc * 10 + (c.toNat - 48)) 0

/-- Python s.replace(".obj", ""): removes every occurrence of the mesh
file extension. -/
def stripObj : List Char → List Char
  | '.' :: 'o' :: 'b' :: 'j' :: rest => stripObj rest
  | c :: rest => c :: stripObj rest
  | [] => []

/-- Parent indices of an interpolation record (synthesize.py line 317):
int(i) for i in name.split("__")[:-1] — all groups except the trailing
factor-and-extension group. -/
def parseInterp (name : String) : List ℕ :=
  ((splitUU name.toList).dropLast).map natOfDigits

/-- Parent indices of an arithmetic record (synthesize.py line 320):
int(i.replace(".obj", "")) for i in name.split("__") — every group, with
the extension stripped. -/
def parseArith (name : String) : List ℕ :=
  (splitUU name.toList).map (fun s => natOfDigits (stripObj s))

/-- The BFS loop of trace_back_to_origin (synthesize.py lines 303-324),
made total with a fuel parameter (the python while-loop terminates on real
ledgers because parents precede children; fuel bounds the number of pops).
Queue pops from the front; the current record is appended to the trace
before expansion; initial records enqueue nothing; interpolation and
arithmetic records enqueue the indices parsed from their name (real
ledgers contain no fourth synthesis_type: python would raise there). -/
def traceAux (latent_codes_data : List SynthRecord) : ℕ → List ℕ → List SynthRecord
  | 0, _ => []
  | _ + 1, [] => []
  | fuel + 1, current_index :: queue =>
      let current_data := latent_codes_data.getD current_index default
      let indices : List ℕ :=
        if current_data.synthesis_type = tInitial then []
        else if current_data.synthesis_type = tInterpolation then
          parseInterp current_data.name
        else parseArith current_data.name
      current_data :: traceAux latent_codes_data fuel (queue ++ indices)

/-- trace_back_to_origin (synthesize.py lines 292-324). -/
def trace_back_to_origin (latent_codes_data : List SynthRecord) (index : ℕ)
    (fuel : ℕ) : List SynthRecord :=
  traceAux latent_codes_data fuel [index]

theorem traceAux_nil (data : List SynthRecord) (fuel : ℕ) :
    traceAux data fuel [] = [] := by
  cases fuel with
  | zero => rfl
  | succ f => rfl

/-- A three-record ledger whose interpolation record names record 0 twice
(both parents are record 0). -/
def cexLedger : List SynthRecord :=
  [{ name := "0", index := 0, synthesis_type := tInitial, latent_code := [] },
   { name := "1", index := 1, synthesis_type := tInitial, latent_code := [] },
   { name := "0__0__0-5.obj", index := 2, synthesis_type := tInterpolation,
     latent_code := [] }]

/-- Claim C8: traceToOrigin is a BFS from the given index returning records
in discovery order without deduplication — on an initial record it returns
just that record; an interpolation record (whose name has three
double-underscore groups) enqueues exactly the two parent indices parsed
from its name; an arithmetic record enqueues all parsed parent indices; and
a record reachable twice is reported once per visit (concrete ledger whose
interpolation record lists record 0 as both parents). -/
theorem C8_trace_back_to_origin :
    (∀ (data : List SynthRecord) (idx fuel : ℕ) (h : idx < data.length),
        (data.get ⟨idx, h⟩).synthesis_type = tInitial → 1 ≤ fuel →
        trace_back_to_origin data idx fuel = [data.get ⟨idx, h⟩]) ∧
    (∀ name : String, (splitUU name.toList).length = 3 →
        (parseInterp name).length = 2) ∧
    (∀ (data : List SynthRecord) (fuel idx : ℕ) (rest : List ℕ),
        (data.getD idx default).synthesis_type = tInterpolation →
        traceAux data (fuel + 1) (idx :: rest) =
          (data.getD idx default) ::
            traceAux data fuel (rest ++ parseInterp (data.getD idx default).name)) ∧
    (∀ (data : List SynthRecord) (fuel idx : ℕ) (rest : List ℕ),
        (data.getD idx default).synthesis_type = tArithmetic →
        traceAux data (fuel + 1) (idx :: rest) =
          (data.getD idx default) ::
            traceAux data fuel (rest ++ parseArith (data.getD idx default).name)) ∧
    trace_back_to_origin cexLedger 2 3 =
      [cexLedger.getD 2 default, cexLedger.getD 0 default, cexLedger.getD 0 default] := by
  refine ⟨?_, ?_, ?_, ?_, ?_⟩
  · intro data idx fuel h hinit hfuel
    obtain ⟨f, rfl⟩ : ∃ f, fuel = f + 1 := ⟨fuel - 1, by omega⟩
    have hget : data.getD idx default = data.get ⟨idx, h⟩ := by
      simpa [List.get_eq_getElem] using List.getD_eq_getElem data default h
    show traceAux data (f + 1) [idx] = [data.get ⟨idx, h⟩]
    simp only [traceAux, hget, hinit]
    simp [traceAux_nil]
  · intro name h3
    simp only [parseInterp, List.length_map, List.length_dropLast]
    rw [h3]
  · intro data fuel idx rest h
    simp only [traceAux]
    rw [if_neg (by rw [h]; decide), if_pos h]
  · intro data fuel idx rest h
    simp only [traceAux]
    rw [if_neg (by rw [h]; decide), if_neg (by rw [h]; decide)]
  · decide

/-- Concrete check of C8 on the ledger above: tracing an initial record
yields a single-element list. -/
theorem C8_trace_back_to_origin_witness :
    trace_back_to_origin cexLedger 0 1 =
      [cexLedger.get ⟨0, by decide⟩] :=
  C8_trace_back_to_origin.1 cexLedger 0 1 (by decide) rfl (by decide)

/-- The chunk sizes produced by torch.split(coords, s) along dim 0 for a
tensor of n rows and positive split size s: chunks of s rows, with a final
smaller chunk of n mod s rows when s does not divide n. -/
def chunkSizes (n s : ℕ) : List ℕ :=
  List.replicate (n / s) s ++ (if n % s = 0 then [] else [n % s])

/-- torch.split(coords, split_size) along dim 0: raises (none) when
split_size is 0 and the dimension is nonzero ("split_size can only be 0 if
dimension size is also 0"), else yields the chunk sizes. -/
def torchSplit (n s : ℕ) : Option (List ℕ) :=
  if s = 0 then (if n = 0 then some [] else none) else some (chunkSizes n s)

/-- The batching step of Synthesizer.synthesize (synthesize.py line 165):
torch.split(coords, coords.shape[0] // 1000) on a grid of N points. -/
def synthesizeBatchSizes (N : ℕ) : Option (List ℕ) :=
  torchSplit N (N / 1000)

/-- Claim C10 (implicit): synthesize splits the N-point coordinate grid
with chunk size N // 1000; for every nonempty grid with fewer than 1000
points the chunk size is 0 and torch.split raises, so synthesize succeeds
only on grids of at least 1000 points, where it partitions the grid into
chunks of size N // 1000 (last chunk possibly smaller), preserving all N
points. -/
theorem C10_synthesize_batching :
    (∀ N : ℕ, 1 ≤ N → N < 1000 →
        N / 1000 = 0 ∧ synthesizeBatchSizes N = none) ∧
    (∀ N : ℕ, 1000 ≤ N →
        synthesizeBatchSizes N = some (chunkSizes N (N / 1000)) ∧
        (chunkSizes N (N / 1000)).sum = N ∧
        (∀ c ∈ chunkSizes N (N / 1000), c ≤ N / 1000) ∧
        (chunkSizes N (N / 1000)).head? = some (N / 1000)) := by
  constructor
  · intro N h1 h2
    have hz : N / 1000 = 0 := Nat.div_eq_of_lt h2
    have hNz : N ≠ 0 := by omega
    exact ⟨hz, by simp [synthesizeBatchSizes, torchSplit, hz, hNz]⟩
  · intro N hN
    have hs : 1 ≤ N / 1000 := (Nat.one_le_div_iff (by norm_num)).mpr hN
    have hsz : N / 1000 ≠ 0 := by omega
    refine ⟨by simp [synthesizeBatchSizes, torchSplit, hsz], ?_, ?_, ?_⟩
    · by_cases hr : N % (N / 1000) = 0
      · simp only [chunkSizes]
        rw [if_pos hr]
        simp only [List.append_nil, List.sum_replicate, smul_eq_mul]
        exact Nat.div_mul_cancel (Nat.dvd_of_mod_eq_zero hr)
      · simp only [chunkSizes, if_neg hr, List.sum_append, List.sum_replicate,
          smul_eq_mul, List.sum_cons, List.sum_nil, add_zero]
        have hdm := Nat.div_add_mod N (N / 1000)
        calc N / (N / 1000) * (N / 1000) + N % (N / 1000)
            = N / 1000 * (N / (N / 1000)) + N % (N / 1000) := by ring_nf
          _ = N := hdm
    · intro c hc
      simp only [chunkSizes, List.mem_append] at hc
      rcases hc with hc | hc
      · rw [List.eq_of_mem_replicate hc]
      · rcases Nat.eq_zero_or_pos (N % (N / 1000)) with hr | hr
        · simp [hr] at hc
        · have : N % (N / 1000) ≠ 0 := by omega
          simp only [if_neg this, List.mem_singleton] at hc
          rw [hc]
          exact le_of_lt (Nat.mod_lt _ (by omega))
    · obtain ⟨k, hk⟩ : ∃ k, N / (N / 1000) = k + 1 := by
        have : 1 ≤ N / (N / 1000) := (Nat.one_le_div_iff (by omega)).mpr
          (Nat.div_le_self N 1000)
        exact ⟨N / (N / 1000) - 1, by omega⟩
      simp [chunkSizes, hk, List.replicate_succ]

/-- Concrete check of C10: a 500-point grid makes torch.split fail, while
a 2500-point grid is split into chunks that preserve all 2500 points. -/
theorem C10_synthesize_batching_witness :
    synthesizeBatchSizes 500 = none ∧
      (chunkSizes 2500 (2500 / 1000)).sum = 2500 :=
  ⟨(C10_synthesize_batching.1 500 (by norm_num) (by norm_num)).2,
   (C10_synthesize_batching.2 2500 (by norm_num)).2.1⟩
